import Mathlib

/-!
Verification of `osmium/index/relations_map.hpp` (libosmium).

The file models, as a shallow embedding:

* `detail::flat_map<TKey, TKeyInternal, TValue, TValueInternal>` at the one
  instantiation used in this header
  (`flat_map<unsigned_object_id_type, uint32_t, unsigned_object_id_type, uint32_t>`):
  the member vector `m_map` becomes a `List (Nat × Nat)`; the narrowing
  `static_cast<uint32_t>` in `kv_pair`'s constructors becomes an explicit
  reduction modulo `2 ^ 32`.
* `RelationsMapIndex`, `RelationsMapIndexes` and `RelationsMapStash`.
  The debug assertion `assert(m_valid && ...)` guarding every stash operation
  is modelled by returning `Option` results: `none` is the failing assertion,
  `some` the normal path.  The move-out of `m_map` at freeze time leaves the
  stash with an emptied vector and `m_valid = false`.

A visitor-based `for_each` is modelled by the list of arguments the visitor
is invoked with, in invocation order.
-/

/-- Internal storage width of the instantiation used by the stash and the
indexes: keys and values are stored as `uint32_t` while the external
id type `osmium::unsigned_object_id_type` is 64 bits wide. -/
def uint32_width : Nat := 2 ^ 32

/-- The vector `std::vector<kv_pair> m_map` of the `flat_map` instantiation
with both internal types `uint32_t`; each stored pair is already narrowed. -/
abbrev flat_map := List (Nat × Nat)

/-- The two-argument `kv_pair` constructor: both ids are narrowed by
`static_cast<TKeyInternal>` / `static_cast<TValueInternal>`, i.e. reduced
modulo `2 ^ 32`. -/
def flat_map.kv_pair (key_id value_id : Nat) : Nat × Nat :=
  (key_id % uint32_width, value_id % uint32_width)

/-- The strict lexicographic order `kv_pair::operator<`
(`std::tie(key, value) < std::tie(other.key, other.value)`). -/
def kv_lt (a b : Nat × Nat) : Prop :=
  a.1 < b.1 ∨ (a.1 = b.1 ∧ a.2 < b.2)

/-- Reflexive closure of `kv_lt`; `std::sort` with the strict comparator
`operator<` produces exactly a `kv_le`-sorted permutation of the input. -/
def kv_le (a b : Nat × Nat) : Prop :=
  a.1 < b.1 ∨ (a.1 = b.1 ∧ a.2 ≤ b.2)

instance kv_lt_dec : DecidableRel kv_lt := fun a b => by
  unfold kv_lt; exact inferInstance

instance kv_le_dec : DecidableRel kv_le := fun a b => by
  unfold kv_le; exact inferInstance

instance kv_le_total : IsTotal (Nat × Nat) kv_le := by
  constructor
  intro a b
  unfold kv_le
  omega

instance kv_le_trans : IsTrans (Nat × Nat) kv_le := by
  constructor
  intro a b c hab hbc
  unfold kv_le at *
  omega

instance kv_le_antisymm : IsAntisymm (Nat × Nat) kv_le := by
  constructor
  intro a b hab hba
  unfold kv_le at *
  have h1 : a.1 = b.1 := by omega
  have h2 : a.2 = b.2 := by omega
  exact Prod.ext h1 h2

/-- `flat_map::set`: `m_map.emplace_back(key, value)`, which runs the
narrowing `kv_pair` constructor. -/
def flat_map.set (m : flat_map) (key value : Nat) : flat_map :=
  m ++ [flat_map.kv_pair key value]

/-- `flat_map::flip_in_place` (available since key and value share the
external type here): `swap(p.key, p.value)` for every stored pair; the
stored fields are exchanged without any further narrowing. -/
def flat_map.flip_in_place (m : flat_map) : flat_map :=
  m.map (fun p => (p.2, p.1))

/-- `flat_map::flip_copy`: builds a fresh map by `map.set(p.value, p.key)`
for every stored pair in order (each `set` runs the narrowing constructor
again), and only reads the receiver.  The first component is the returned
map, the second the receiver's `m_map` after the call (unchanged, since the
body only iterates over `const auto& p`). -/
def flat_map.flip_copy (m : flat_map) : flat_map × flat_map :=
  (m.foldl (fun acc p => flat_map.set acc p.2 p.1) [], m)

/-- `std::unique` followed by `erase`: drop every element equal to its
predecessor, keeping one representative per run of adjacent duplicates. -/
def flat_map.erase_unique : flat_map → flat_map
  | [] => []
  | [a] => [a]
  | a :: b :: l =>
    if a = b then flat_map.erase_unique (b :: l)
    else a :: flat_map.erase_unique (b :: l)

/-- `flat_map::sort_unique`: `std::sort` by `kv_pair::operator<` followed by
`std::unique`/`erase`.  `std::sort` is modelled by insertion sort: since
`kv_le` is a total order whose associated equivalence is equality, every
comparison sort produces the same (unique) sorted permutation. -/
def flat_map.sort_unique (m : flat_map) : flat_map :=
  flat_map.erase_unique (List.insertionSort kv_le m)

/-- `flat_map::get`: `std::equal_range` over `m_map` with the key-only
comparator, probing with `kv_pair{key}` (whose key field is the narrowed
`key`).  On a key-sorted vector — the only state in which the header calls
`get`, since every index is built through `sort_unique` — `equal_range`
returns exactly the maximal contiguous run of entries whose stored key
equals the narrowed probe key, which is what this computes. -/
def flat_map.get (m : flat_map) (key : Nat) : flat_map :=
  (m.dropWhile (fun p => decide (p.1 < key % uint32_width))).takeWhile
    (fun p => decide (p.1 = key % uint32_width))

/-- `flat_map::empty`. -/
def flat_map.empty (m : flat_map) : Bool :=
  m.isEmpty

/-- `flat_map::size`. -/
def flat_map.size (m : flat_map) : Nat :=
  m.length

/-- `RelationsMapIndex`: wraps a frozen `map_type` (the `flat_map`
instantiation above). -/
structure RelationsMapIndex where
  m_map : flat_map
deriving DecidableEq

/-- `RelationsMapIndex::for_each_parent` (deprecated in the header): calls
the visitor with `it->value` for every entry of `m_map.get(member_id)`;
modelled by the list of visited values in order. -/
def RelationsMapIndex.for_each_parent (idx : RelationsMapIndex) (member_id : Nat) : List Nat :=
  (flat_map.get idx.m_map member_id).map (fun p => p.2)

/-- `RelationsMapIndex::for_each`: calls the visitor with `it->value` for
every entry of `m_map.get(id)`; modelled by the list of visited values in
order. -/
def RelationsMapIndex.for_each (idx : RelationsMapIndex) (id : Nat) : List Nat :=
  (flat_map.get idx.m_map id).map (fun p => p.2)

/-- `RelationsMapIndex::empty`. -/
def RelationsMapIndex.empty (idx : RelationsMapIndex) : Bool :=
  flat_map.empty idx.m_map

/-- `RelationsMapIndex::size`. -/
def RelationsMapIndex.size (idx : RelationsMapIndex) : Nat :=
  flat_map.size idx.m_map

/-- `RelationsMapIndexes`: the pair of indexes built together by
`RelationsMapStash::build_indexes`. -/
structure RelationsMapIndexes where
  m_member_to_parent : RelationsMapIndex
  m_parent_to_member : RelationsMapIndex
deriving DecidableEq

/-- `RelationsMapIndexes::member_to_parent`. -/
def RelationsMapIndexes.member_to_parent (i : RelationsMapIndexes) : RelationsMapIndex :=
  i.m_member_to_parent

/-- `RelationsMapIndexes::parent_to_member`. -/
def RelationsMapIndexes.parent_to_member (i : RelationsMapIndexes) : RelationsMapIndex :=
  i.m_parent_to_member

/-- `RelationsMapIndexes::empty`: delegates to the member-to-parent side. -/
def RelationsMapIndexes.empty (i : RelationsMapIndexes) : Bool :=
  i.m_member_to_parent.empty

/-- `RelationsMapIndexes::size`: delegates to the member-to-parent side. -/
def RelationsMapIndexes.size (i : RelationsMapIndexes) : Nat :=
  i.m_member_to_parent.size

/-- Modelled from the spec: `osmium::item_type` (defined in
`osmium/osm/item_type.hpp`, which is not part of this fragment) as "a closed
enumeration of member kinds — only the relation-typed members contribute;
others are ignored".  Only distinctness of `relation` from the other tags
matters here. -/
inductive item_type where
  | node
  | way
  | relation
  | area
  | changeset
deriving DecidableEq

/-- Modelled from the spec: a relation member as exposed by
`osmium::RelationMemberList` (not part of this fragment): a member-kind tag
together with the referenced id. -/
structure RelationMember where
  type : item_type
  ref : Nat
deriving DecidableEq

/-- Modelled from the spec: `member.positive_ref()` — ids are modelled as
the non-negative integers the spec describes, so this is the stored ref. -/
def RelationMember.positive_ref (m : RelationMember) : Nat :=
  m.ref

/-- Modelled from the spec: an `osmium::Relation` record (not part of this
fragment) as "an external relation record exposing its own identifier and an
ordered sequence of (type_tag, referenced_id) members". -/
structure Relation where
  id : Nat
  members : List RelationMember
deriving DecidableEq

/-- Modelled from the spec: `relation.positive_id()`. -/
def Relation.positive_id (r : Relation) : Nat :=
  r.id

/-- `RelationsMapStash`: the accumulating builder.  `m_valid` is the
debug-build flag guarding every operation. -/
structure RelationsMapStash where
  m_map : flat_map
  m_valid : Bool
deriving DecidableEq

/-- Default-constructed stash: empty map, `m_valid = true`. -/
def RelationsMapStash.init : RelationsMapStash :=
  ⟨[], true⟩

/-- `RelationsMapStash::add`: assert `m_valid`, then `m_map.set(member_id, relation_id)`. -/
def RelationsMapStash.add (s : RelationsMapStash) (member_id relation_id : Nat) :
    Option RelationsMapStash :=
  if s.m_valid then
    some { s with m_map := flat_map.set s.m_map member_id relation_id }
  else none

/-- `RelationsMapStash::add_members`: assert `m_valid`, then for every member
of the relation, in order, `m_map.set(member.positive_ref(), relation.positive_id())`
when the member's type is `relation`; other member types are skipped. -/
def RelationsMapStash.add_members (s : RelationsMapStash) (relation : Relation) :
    Option RelationsMapStash :=
  if s.m_valid then
    let new_map : flat_map :=
      relation.members.foldl
        (fun m member =>
          if member.type = item_type.relation then
            flat_map.set m member.positive_ref relation.positive_id
          else m)
        s.m_map
    some { s with m_map := new_map }
  else none

/-- `RelationsMapStash::empty` (asserts `m_valid`). -/
def RelationsMapStash.empty (s : RelationsMapStash) : Option Bool :=
  if s.m_valid then some (flat_map.empty s.m_map) else none

/-- `RelationsMapStash::size` (asserts `m_valid`). -/
def RelationsMapStash.size (s : RelationsMapStash) : Option Nat :=
  if s.m_valid then some (flat_map.size s.m_map) else none

/-- `RelationsMapStash::build_index` (deprecated in the header): assert
`m_valid`, `m_map.sort_unique()`, clear `m_valid`, move `m_map` into the
returned index.  The result pairs the index with the consumed stash. -/
def RelationsMapStash.build_index (s : RelationsMapStash) :
    Option (RelationsMapIndex × RelationsMapStash) :=
  if s.m_valid then
    some (⟨flat_map.sort_unique s.m_map⟩, ⟨[], false⟩)
  else none

/-- `RelationsMapStash::build_member_to_parent_index`: same body as
`build_index`. -/
def RelationsMapStash.build_member_to_parent_index (s : RelationsMapStash) :
    Option (RelationsMapIndex × RelationsMapStash) :=
  if s.m_valid then
    some (⟨flat_map.sort_unique s.m_map⟩, ⟨[], false⟩)
  else none

/-- `RelationsMapStash::build_parent_to_member_index`: assert `m_valid`,
`m_map.flip_in_place()`, `m_map.sort_unique()`, clear `m_valid`, move
`m_map` into the returned index. -/
def RelationsMapStash.build_parent_to_member_index (s : RelationsMapStash) :
    Option (RelationsMapIndex × RelationsMapStash) :=
  if s.m_valid then
    some (⟨flat_map.sort_unique (flat_map.flip_in_place s.m_map)⟩, ⟨[], false⟩)
  else none

/-- `RelationsMapStash::build_indexes`: assert `m_valid`, build
`reverse_map = m_map.flip_copy()`, `reverse_map.sort_unique()`,
`m_map.sort_unique()`, clear `m_valid`, move both maps into the returned
`RelationsMapIndexes{std::move(m_map), std::move(reverse_map)}`. -/
def RelationsMapStash.build_indexes (s : RelationsMapStash) :
    Option (RelationsMapIndexes × RelationsMapStash) :=
  if s.m_valid then
    let fc := flat_map.flip_copy s.m_map
    some (⟨⟨flat_map.sort_unique fc.2⟩, ⟨flat_map.sort_unique fc.1⟩⟩, ⟨[], false⟩)
  else none

/-- A caller's sequence of `add` calls, threaded through the `Option`
modelling the debug assertion. -/
def RelationsMapStash.addList (s : RelationsMapStash) :
    List (Nat × Nat) → Option RelationsMapStash
  | [] => some s
  | p :: ps =>
    match s.add p.1 p.2 with
    | some t => RelationsMapStash.addList t ps
    | none => none

/-! Helper lemmas about the pair orders. -/

theorem kv_le_of_lt {a b : Nat × Nat} (h : kv_lt a b) : kv_le a b := by
  unfold kv_lt at h
  unfold kv_le
  omega

theorem kv_lt_irrefl (a : Nat × Nat) : ¬ kv_lt a a := by
  unfold kv_lt
  omega

theorem kv_lt_ne {a b : Nat × Nat} (h : kv_lt a b) : a ≠ b :=
  fun he => kv_lt_irrefl b (he ▸ h)

theorem kv_lt_of_le_of_ne {a b : Nat × Nat} (h : kv_le a b) (hne : a ≠ b) : kv_lt a b := by
  by_cases h1 : a.1 = b.1
  · have h2 : a.2 ≠ b.2 := fun h2 => hne (Prod.ext h1 h2)
    unfold kv_le at h
    unfold kv_lt
    omega
  · unfold kv_le at h
    unfold kv_lt
    omega

theorem kv_lt_of_lt_of_le {a b c : Nat × Nat} (hab : kv_lt a b) (hbc : kv_le b c) :
    kv_lt a c := by
  unfold kv_lt at *
  unfold kv_le at hbc
  omega

/-! Helper lemmas about `erase_unique` and `sort_unique`. -/

theorem mem_erase_unique : ∀ (l : flat_map) (x : Nat × Nat),
    x ∈ flat_map.erase_unique l ↔ x ∈ l
  | [], _ => Iff.rfl
  | [_], _ => Iff.rfl
  | a :: b :: l, x => by
    by_cases h : a = b
    · subst h
      have he : flat_map.erase_unique (a :: a :: l) = flat_map.erase_unique (a :: l) := by
        simp [flat_map.erase_unique]
      rw [he, mem_erase_unique (a :: l) x]
      simp
    · simp only [flat_map.erase_unique]
      rw [if_neg h]
      simp [mem_erase_unique (b :: l) x]

theorem erase_unique_pairwise_lt : ∀ {l : flat_map},
    l.Pairwise kv_le → (flat_map.erase_unique l).Pairwise kv_lt
  | [], _ => by simp [flat_map.erase_unique]
  | [a], _ => by simp [flat_map.erase_unique]
  | a :: b :: l, h => by
    rw [List.pairwise_cons] at h
    obtain ⟨ha, htail⟩ := h
    by_cases heq : a = b
    · simp only [flat_map.erase_unique]
      rw [if_pos heq]
      exact erase_unique_pairwise_lt htail
    · simp only [flat_map.erase_unique]
      rw [if_neg heq]
      rw [List.pairwise_cons]
      refine ⟨?_, erase_unique_pairwise_lt htail⟩
      intro x hx
      rw [mem_erase_unique] at hx
      have hab : kv_lt a b := kv_lt_of_le_of_ne (ha b (List.mem_cons_self b l)) heq
      rcases List.mem_cons.mp hx with hxb | hxl
      · exact hxb ▸ hab
      · exact kv_lt_of_lt_of_le hab (List.rel_of_pairwise_cons htail hxl)

theorem erase_unique_eq_self : ∀ {l : flat_map},
    l.Pairwise kv_lt → flat_map.erase_unique l = l
  | [], _ => rfl
  | [_], _ => rfl
  | a :: b :: l, h => by
    rw [List.pairwise_cons] at h
    obtain ⟨ha, htail⟩ := h
    have hne : a ≠ b := kv_lt_ne (ha b (List.mem_cons_self b l))
    simp only [flat_map.erase_unique]
    rw [if_neg hne]
    rw [erase_unique_eq_self htail]

theorem sort_unique_pairwise_lt (m : flat_map) :
    (flat_map.sort_unique m).Pairwise kv_lt :=
  erase_unique_pairwise_lt (List.sorted_insertionSort kv_le m)

theorem mem_sort_unique {m : flat_map} {x : Nat × Nat} :
    x ∈ flat_map.sort_unique m ↔ x ∈ m := by
  unfold flat_map.sort_unique
  rw [mem_erase_unique]
  exact List.mem_insertionSort kv_le

theorem sort_unique_sorted_le (m : flat_map) :
    List.Sorted kv_le (flat_map.sort_unique m) :=
  (sort_unique_pairwise_lt m).imp kv_le_of_lt

theorem sort_unique_nodup (m : flat_map) :
    (flat_map.sort_unique m).Nodup :=
  (sort_unique_pairwise_lt m).imp kv_lt_ne

/-- Unfolding of the accumulation loop of `flip_copy`. -/
theorem flip_copy_fold (m : flat_map) : ∀ acc : flat_map,
    m.foldl (fun acc p => flat_map.set acc p.2 p.1) acc =
      acc ++ m.map (fun p => flat_map.kv_pair p.2 p.1) := by
  induction m with
  | nil => intro acc; simp
  | cons p t ih =>
    intro acc
    simp only [List.foldl_cons, List.map_cons]
    rw [ih]
    simp [flat_map.set]

/-- Entries produced by the narrowing constructor are inside the internal
width. -/
theorem kv_pair_lt_width (a b : Nat) :
    (flat_map.kv_pair a b).1 < uint32_width ∧ (flat_map.kv_pair a b).2 < uint32_width := by
  unfold flat_map.kv_pair uint32_width
  constructor <;> exact Nat.mod_lt _ (by norm_num)

/-- The narrowing constructor is the identity inside the internal width. -/
theorem kv_pair_eq_of_lt {a b : Nat} (ha : a < uint32_width) (hb : b < uint32_width) :
    flat_map.kv_pair a b = (a, b) := by
  unfold flat_map.kv_pair
  rw [Nat.mod_eq_of_lt ha, Nat.mod_eq_of_lt hb]

/-- C6: `sort_unique` is idempotent: applying it a second time immediately
after a first application leaves the entry collection exactly unchanged. -/
theorem claim_C6 (m : flat_map) :
    flat_map.sort_unique (flat_map.sort_unique m) = flat_map.sort_unique m := by
  have h := sort_unique_pairwise_lt m
  show flat_map.erase_unique (List.insertionSort kv_le (flat_map.sort_unique m)) =
    flat_map.sort_unique m
  rw [List.Sorted.insertionSort_eq (sort_unique_sorted_le m)]
  exact erase_unique_eq_self h

/-- C7: on any entry collection whose entries are inside the internal width
(the invariant of every collection the header ever builds, since all entries
pass through the narrowing constructor), `flip_copy` returns the new
independent structure whose entries are exactly the original's with key and
value swapped, in the same order, and leaves the receiver's entry collection
(the second component) completely unchanged; no sorting is applied to the
result. -/
theorem claim_C7 (m : flat_map)
    (h : ∀ p ∈ m, p.1 < uint32_width ∧ p.2 < uint32_width) :
    flat_map.flip_copy m = (m.map (fun p => (p.2, p.1)), m) := by
  unfold flat_map.flip_copy
  rw [flip_copy_fold]
  simp only [List.nil_append]
  have hmap : m.map (fun p => flat_map.kv_pair p.2 p.1) = m.map (fun p => (p.2, p.1)) := by
    apply List.map_congr_left
    intro p hp
    obtain ⟨h1, h2⟩ := h p hp
    exact kv_pair_eq_of_lt h2 h1
  rw [hmap]

theorem claim_C7_witness :
    (∀ p ∈ ([(1, 2), (3, 4)] : flat_map), p.1 < uint32_width ∧ p.2 < uint32_width) ∧
    flat_map.flip_copy [(1, 2), (3, 4)] = ([(2, 1), (4, 3)], [(1, 2), (3, 4)]) :=
  ⟨by decide, claim_C7 [(1, 2), (3, 4)] (by decide)⟩

/-- C9: `add(member_id, relation_id)` on a live stash stores exactly the pair
`(member_id mod 2^32, relation_id mod 2^32)` — the unchecked narrowing to the
32-bit internal width — so any two calls whose arguments agree modulo `2^32`
are indistinguishable. -/
theorem claim_C9 (s : RelationsMapStash) (member_id relation_id : Nat)
    (h : s.m_valid = true) :
    s.add member_id relation_id =
      some { s with m_map :=
        s.m_map ++ [(member_id % uint32_width, relation_id % uint32_width)] } ∧
    (∀ m p, m % uint32_width = member_id % uint32_width →
      p % uint32_width = relation_id % uint32_width →
      s.add m p = s.add member_id relation_id) := by
  constructor
  · simp [RelationsMapStash.add, h, flat_map.set, flat_map.kv_pair]
  · intro m p hm hp
    simp [RelationsMapStash.add, h, flat_map.set, flat_map.kv_pair, hm, hp]

theorem claim_C9_witness :
    RelationsMapStash.init.m_valid = true ∧
    (RelationsMapStash.init.add (2 ^ 32 + 5) 7 =
      some { RelationsMapStash.init with m_map :=
        RelationsMapStash.init.m_map ++
          [((2 ^ 32 + 5) % uint32_width, 7 % uint32_width)] } ∧
    (∀ m p, m % uint32_width = (2 ^ 32 + 5) % uint32_width →
      p % uint32_width = 7 % uint32_width →
      RelationsMapStash.init.add m p = RelationsMapStash.init.add (2 ^ 32 + 5) 7)) :=
  ⟨rfl, claim_C9 RelationsMapStash.init (2 ^ 32 + 5) 7 rfl⟩

/-- C10: the deprecated operations are exact behavioral duplicates of their
replacements: `for_each_parent` makes the same visitor calls in the same
order as `for_each` on every index and id, and `build_index` agrees with
`build_member_to_parent_index` on every stash state, index result and
consumption effect included. -/
theorem claim_C10 :
    (∀ (idx : RelationsMapIndex) (id : Nat),
      idx.for_each_parent id = idx.for_each id) ∧
    (∀ s : RelationsMapStash, s.build_index = s.build_member_to_parent_index) :=
  ⟨fun _ _ => rfl, fun _ => rfl⟩

/-- On a consumed stash (`m_valid = false`) every operation reaches the
failing debug assertion, modelled as `none`. -/
theorem consumed_stash_ops (s' : RelationsMapStash) (h : s'.m_valid = false) :
    (∀ a b, s'.add a b = none) ∧ (∀ r, s'.add_members r = none) ∧
    s'.empty = none ∧ s'.size = none ∧
    s'.build_index = none ∧ s'.build_member_to_parent_index = none ∧
    s'.build_parent_to_member_index = none ∧ s'.build_indexes = none := by
  refine ⟨?_, ?_, ?_, ?_, ?_, ?_, ?_, ?_⟩ <;>
    simp [RelationsMapStash.add, RelationsMapStash.add_members, RelationsMapStash.empty,
      RelationsMapStash.size, RelationsMapStash.build_index,
      RelationsMapStash.build_member_to_parent_index,
      RelationsMapStash.build_parent_to_member_index, RelationsMapStash.build_indexes, h]

/-- C8: once any `build_*` call completes on a stash, the stash was live at
that call (`m_valid` was `true`, the consumption point) and is consumed
afterwards (`m_valid = false`); every subsequent stash operation — `add`,
`add_members`, `empty`, `size` or any `build_*` — reaches the failing debug
assertion instead of any normal result path. -/
theorem claim_C8 (s s' : RelationsMapStash) (i : RelationsMapIndex) (ixs : RelationsMapIndexes)
    (h : s.build_index = some (i, s') ∨
         s.build_member_to_parent_index = some (i, s') ∨
         s.build_parent_to_member_index = some (i, s') ∨
         s.build_indexes = some (ixs, s')) :
    s.m_valid = true ∧ s'.m_valid = false ∧
    (∀ a b, s'.add a b = none) ∧ (∀ r, s'.add_members r = none) ∧
    s'.empty = none ∧ s'.size = none ∧
    s'.build_index = none ∧ s'.build_member_to_parent_index = none ∧
    s'.build_parent_to_member_index = none ∧ s'.build_indexes = none := by
  have hsv : s.m_valid = true := by
    by_cases hm : s.m_valid
    · exact hm
    · simp only [Bool.not_eq_true] at hm
      rcases h with h | h | h | h <;>
        simp [RelationsMapStash.build_index, RelationsMapStash.build_member_to_parent_index,
          RelationsMapStash.build_parent_to_member_index, RelationsMapStash.build_indexes,
          hm] at h
  have hs' : s'.m_valid = false := by
    rcases h with h | h | h | h <;>
    · simp [RelationsMapStash.build_index, RelationsMapStash.build_member_to_parent_index,
        RelationsMapStash.build_parent_to_member_index, RelationsMapStash.build_indexes,
        hsv, Prod.mk.injEq] at h
      obtain ⟨-, h2⟩ := h
      rw [← h2]
  obtain ⟨h1, h2, h3, h4, h5, h6, h7, h8⟩ := consumed_stash_ops s' hs'
  exact ⟨hsv, hs', h1, h2, h3, h4, h5, h6, h7, h8⟩

theorem claim_C8_witness :
    (RelationsMapStash.init.build_index =
        some (⟨[]⟩, (⟨[], false⟩ : RelationsMapStash)) ∨
     RelationsMapStash.init.build_member_to_parent_index =
        some (⟨[]⟩, (⟨[], false⟩ : RelationsMapStash)) ∨
     RelationsMapStash.init.build_parent_to_member_index =
        some (⟨[]⟩, (⟨[], false⟩ : RelationsMapStash)) ∨
     RelationsMapStash.init.build_indexes =
        some (⟨⟨[]⟩, ⟨[]⟩⟩, (⟨[], false⟩ : RelationsMapStash))) ∧
    (RelationsMapStash.init.m_valid = true ∧
     (⟨[], false⟩ : RelationsMapStash).m_valid = false ∧
     (∀ a b, (⟨[], false⟩ : RelationsMapStash).add a b = none) ∧
     (∀ r, (⟨[], false⟩ : RelationsMapStash).add_members r = none) ∧
     (⟨[], false⟩ : RelationsMapStash).empty = none ∧
     (⟨[], false⟩ : RelationsMapStash).size = none ∧
     (⟨[], false⟩ : RelationsMapStash).build_index = none ∧
     (⟨[], false⟩ : RelationsMapStash).build_member_to_parent_index = none ∧
     (⟨[], false⟩ : RelationsMapStash).build_parent_to_member_index = none ∧
     (⟨[], false⟩ : RelationsMapStash).build_indexes = none) :=
  ⟨Or.inl (by decide),
   claim_C8 RelationsMapStash.init ⟨[], false⟩ ⟨[]⟩ ⟨⟨[]⟩, ⟨[]⟩⟩ (Or.inl (by decide))⟩

/-- Unfolding a successful sequence of `add` calls starting from a live
stash: the map accumulates the narrowed pairs in order. -/
theorem addList_from_valid : ∀ (ps : List (Nat × Nat)) (m : flat_map),
    RelationsMapStash.addList ⟨m, true⟩ ps =
      some ⟨m ++ ps.map (fun p => flat_map.kv_pair p.1 p.2), true⟩
  | [], m => by simp [RelationsMapStash.addList]
  | p :: ps, m => by
    have hstep : (⟨m, true⟩ : RelationsMapStash).add p.1 p.2 =
        some ⟨flat_map.set m p.1 p.2, true⟩ := rfl
    simp only [RelationsMapStash.addList, hstep]
    rw [addList_from_valid ps (flat_map.set m p.1 p.2)]
    simp [flat_map.set]

theorem pairwise_key_le_of_pairwise_lt {m : flat_map} (h : m.Pairwise kv_lt) :
    m.Pairwise (fun a b => a.1 ≤ b.1) :=
  h.imp (fun hab => by unfold kv_lt at hab; omega)

/-- On a key-sorted segment all of whose keys are at least `k`, taking the
prefix with key `k` is the same as filtering for key `k`. -/
theorem takeWhile_key_eq_filter (k : Nat) : ∀ (l : flat_map),
    (∀ p ∈ l, k ≤ p.1) → l.Pairwise (fun a b => a.1 ≤ b.1) →
    l.takeWhile (fun p => decide (p.1 = k)) = l.filter (fun p => decide (p.1 = k))
  | [], _, _ => rfl
  | p :: t, hall, hpw => by
    rw [List.pairwise_cons] at hpw
    obtain ⟨hp, htail⟩ := hpw
    by_cases hk : p.1 = k
    · have ih := takeWhile_key_eq_filter k t (fun q hq => hall q (List.mem_cons_of_mem p hq)) htail
      simp [List.takeWhile_cons, List.filter_cons, hk, ih]
    · have hklt : k < p.1 :=
        Nat.lt_of_le_of_ne (hall p (List.mem_cons_self p t)) (fun he => hk he.symm)
      have hfil : t.filter (fun p => decide (p.1 = k)) = [] := by
        rw [List.filter_eq_nil_iff]
        intro q hq
        have hle : p.1 ≤ q.1 := hp q hq
        simp only [decide_eq_true_eq]
        omega
      simp [List.takeWhile_cons, List.filter_cons, hk, hfil]

/-- On a key-sorted vector, the drop-then-take of `get` is exactly the
filter by the probe key. -/
theorem dropWhile_takeWhile_eq_filter (k : Nat) : ∀ (l : flat_map),
    l.Pairwise (fun a b => a.1 ≤ b.1) →
    (l.dropWhile (fun p => decide (p.1 < k))).takeWhile (fun p => decide (p.1 = k)) =
      l.filter (fun p => decide (p.1 = k))
  | [], _ => rfl
  | p :: t, hpw => by
    rw [List.pairwise_cons] at hpw
    obtain ⟨hp, htail⟩ := hpw
    by_cases hlt : p.1 < k
    · have hne : ¬(p.1 = k) := by omega
      have ih := dropWhile_takeWhile_eq_filter k t htail
      simp [List.dropWhile_cons, List.filter_cons, hlt, hne, ih]
    · have hd : List.dropWhile (fun p => decide (p.1 < k)) (p :: t) = p :: t := by
        simp [List.dropWhile_cons, hlt]
      rw [hd]
      refine takeWhile_key_eq_filter k (p :: t) ?_ (List.pairwise_cons.mpr ⟨hp, htail⟩)
      intro q hq
      rcases List.mem_cons.mp hq with rfl | hq
      · omega
      · have := hp q hq
        omega

/-- On a key-sorted vector `get` returns exactly the entries carrying the
narrowed probe key. -/
theorem get_eq_filter (m : flat_map) (k : Nat)
    (h : m.Pairwise (fun a b => a.1 ≤ b.1)) :
    flat_map.get m k = m.filter (fun p => decide (p.1 = k % uint32_width)) :=
  dropWhile_takeWhile_eq_filter (k % uint32_width) m h

/-- Querying an index built by `sort_unique` over raw data `l`: the visited
values are strictly ascending and are exactly the values paired with the
narrowed probe key in `l`. -/
theorem for_each_sort_unique (l : flat_map) (k : Nat) :
    ((RelationsMapIndex.mk (flat_map.sort_unique l)).for_each k).Pairwise (· < ·) ∧
    (∀ v, v ∈ (RelationsMapIndex.mk (flat_map.sort_unique l)).for_each k ↔
      (k % uint32_width, v) ∈ l) := by
  have hM := sort_unique_pairwise_lt l
  have hget : flat_map.get (flat_map.sort_unique l) k =
      (flat_map.sort_unique l).filter (fun p => decide (p.1 = k % uint32_width)) :=
    get_eq_filter _ k (pairwise_key_le_of_pairwise_lt hM)
  constructor
  · show ((flat_map.get (flat_map.sort_unique l) k).map (fun p => p.2)).Pairwise (· < ·)
    rw [hget, List.pairwise_map]
    have hf : ((flat_map.sort_unique l).filter
        (fun p => decide (p.1 = k % uint32_width))).Pairwise kv_lt :=
      List.Pairwise.sublist (List.filter_sublist _) hM
    refine List.Pairwise.imp_of_mem ?_ hf
    intro a b ha hb hab
    have ha' := (List.mem_filter.mp ha).2
    have hb' := (List.mem_filter.mp hb).2
    simp only [decide_eq_true_eq] at ha' hb'
    unfold kv_lt at hab
    omega
  · intro v
    show v ∈ (flat_map.get (flat_map.sort_unique l) k).map (fun p => p.2) ↔ _
    rw [hget, List.mem_map]
    constructor
    · rintro ⟨p, hp, rfl⟩
      have h1 := (List.mem_filter.mp hp).1
      have h2 := (List.mem_filter.mp hp).2
      simp only [decide_eq_true_eq] at h2
      rw [mem_sort_unique] at h1
      rw [← h2]
      exact h1
    · intro hv
      refine ⟨(k % uint32_width, v), ?_, rfl⟩
      rw [List.mem_filter]
      exact ⟨mem_sort_unique.mpr hv, by simp⟩

/-- In-width raw pairs survive the narrowing constructor unchanged, so
membership in the narrowed image matches membership in the raw data. -/
theorem mem_map_kv_iff (ps : List (Nat × Nat))
    (hps : ∀ p ∈ ps, p.1 < uint32_width ∧ p.2 < uint32_width)
    {k : Nat} (hk : k < uint32_width) (v : Nat) :
    ((k % uint32_width, v) ∈ ps.map (fun p => flat_map.kv_pair p.1 p.2)) ↔ (k, v) ∈ ps := by
  rw [Nat.mod_eq_of_lt hk, List.mem_map]
  constructor
  · rintro ⟨q, hq, heq⟩
    obtain ⟨h1, h2⟩ := hps q hq
    rw [kv_pair_eq_of_lt h1 h2] at heq
    exact heq ▸ hq
  · intro hv
    refine ⟨(k, v), hv, ?_⟩
    obtain ⟨h1, h2⟩ := hps _ hv
    exact kv_pair_eq_of_lt h1 h2

/-- C1: for every sequence of `add(k, v)` calls followed by
`build_member_to_parent_index` — all identifiers inside the internal 32-bit
width, the spec's caller-trusted narrowing precondition — `for_each(k)`
visits exactly once each distinct value `v` ever added with key `k`, in
strictly ascending value order, however many times each pair was added; a
key never added is visited zero times. -/
theorem claim_C1 (ps : List (Nat × Nat)) (k : Nat) (s s' : RelationsMapStash)
    (idx : RelationsMapIndex)
    (hk : k < uint32_width)
    (hps : ∀ p ∈ ps, p.1 < uint32_width ∧ p.2 < uint32_width)
    (hadd : RelationsMapStash.addList RelationsMapStash.init ps = some s)
    (hbuild : s.build_member_to_parent_index = some (idx, s')) :
    (idx.for_each k).Pairwise (· < ·) ∧
    (∀ v, v ∈ idx.for_each k ↔ (k, v) ∈ ps) ∧
    ((∀ v, (k, v) ∉ ps) → idx.for_each k = []) := by
  rw [show RelationsMapStash.init = (⟨[], true⟩ : RelationsMapStash) from rfl,
    addList_from_valid, List.nil_append] at hadd
  injection hadd with hadd
  subst hadd
  simp only [RelationsMapStash.build_member_to_parent_index] at hbuild
  rw [if_pos trivial] at hbuild
  injection hbuild with hbuild
  obtain ⟨hidx, -⟩ := Prod.mk.inj hbuild
  subst hidx
  obtain ⟨hpw, hmem⟩ :=
    for_each_sort_unique (ps.map (fun p => flat_map.kv_pair p.1 p.2)) k
  have hiff : ∀ v, v ∈ (RelationsMapIndex.mk (flat_map.sort_unique
      (ps.map (fun p => flat_map.kv_pair p.1 p.2)))).for_each k ↔ (k, v) ∈ ps :=
    fun v => (hmem v).trans (mem_map_kv_iff ps hps hk v)
  refine ⟨hpw, hiff, ?_⟩
  intro hnone
  rw [List.eq_nil_iff_forall_not_mem]
  intro v hv
  exact hnone v ((hiff v).mp hv)

theorem claim_C1_witness :
    (1 : Nat) < uint32_width ∧
    (∀ p ∈ ([(1, 100), (2, 100), (1, 100), (3, 200)] : List (Nat × Nat)),
      p.1 < uint32_width ∧ p.2 < uint32_width) ∧
    RelationsMapStash.addList RelationsMapStash.init [(1, 100), (2, 100), (1, 100), (3, 200)] =
      some ⟨[(1, 100), (2, 100), (1, 100), (3, 200)], true⟩ ∧
    (RelationsMapStash.mk [(1, 100), (2, 100), (1, 100), (3, 200)]
        true).build_member_to_parent_index =
      some (⟨[(1, 100), (2, 100), (3, 200)]⟩, ⟨[], false⟩) ∧
    ((RelationsMapIndex.mk [(1, 100), (2, 100), (3, 200)]).for_each 1).Pairwise (· < ·) ∧
    (∀ v, v ∈ (RelationsMapIndex.mk [(1, 100), (2, 100), (3, 200)]).for_each 1 ↔
      ((1 : Nat), v) ∈ ([(1, 100), (2, 100), (1, 100), (3, 200)] : List (Nat × Nat))) ∧
    ((∀ v, ((1 : Nat), v) ∉ ([(1, 100), (2, 100), (1, 100), (3, 200)] : List (Nat × Nat))) →
      (RelationsMapIndex.mk [(1, 100), (2, 100), (3, 200)]).for_each 1 = []) := by
  have h := claim_C1 [(1, 100), (2, 100), (1, 100), (3, 200)] 1
    ⟨[(1, 100), (2, 100), (1, 100), (3, 200)], true⟩ ⟨[], false⟩
    ⟨[(1, 100), (2, 100), (3, 200)]⟩ (by decide) (by decide) (by decide) (by decide)
  exact ⟨by decide, by decide, by decide, by decide, h.1, h.2.1, h.2.2⟩

/-- Mirror of `mem_map_kv_iff` for the flipped image. -/
theorem mem_map_kv_swap_iff (ps : List (Nat × Nat))
    (hps : ∀ p ∈ ps, p.1 < uint32_width ∧ p.2 < uint32_width)
    {v : Nat} (hv : v < uint32_width) (u : Nat) :
    ((v % uint32_width, u) ∈ ps.map (fun p => flat_map.kv_pair p.2 p.1)) ↔ (u, v) ∈ ps := by
  rw [Nat.mod_eq_of_lt hv, List.mem_map]
  constructor
  · rintro ⟨q, hq, heq⟩
    obtain ⟨h1, h2⟩ := hps q hq
    rw [kv_pair_eq_of_lt h2 h1] at heq
    have hq1 : q.2 = v := congrArg Prod.fst heq
    have hq2 : q.1 = u := congrArg Prod.snd heq
    have hqq : q = (u, v) := Prod.ext hq2 hq1
    exact hqq ▸ hq
  · intro hu
    refine ⟨(u, v), hu, ?_⟩
    obtain ⟨h1, h2⟩ := hps _ hu
    exact kv_pair_eq_of_lt h2 h1

/-- C2: for every sequence of `add(k, v)` calls followed by
`build_parent_to_member_index` — all identifiers inside the internal 32-bit
width, the spec's caller-trusted narrowing precondition — `for_each(v)`
visits exactly once each distinct key `k` ever added paired with `v`, in
strictly ascending order, and nothing else: the index is the exact inverse
relation of the accumulated data. -/
theorem claim_C2 (ps : List (Nat × Nat)) (v : Nat) (s s' : RelationsMapStash)
    (idx : RelationsMapIndex)
    (hv : v < uint32_width)
    (hps : ∀ p ∈ ps, p.1 < uint32_width ∧ p.2 < uint32_width)
    (hadd : RelationsMapStash.addList RelationsMapStash.init ps = some s)
    (hbuild : s.build_parent_to_member_index = some (idx, s')) :
    (idx.for_each v).Pairwise (· < ·) ∧
    (∀ k, k ∈ idx.for_each v ↔ (k, v) ∈ ps) ∧
    ((∀ k, (k, v) ∉ ps) → idx.for_each v = []) := by
  rw [show RelationsMapStash.init = (⟨[], true⟩ : RelationsMapStash) from rfl,
    addList_from_valid, List.nil_append] at hadd
  injection hadd with hadd
  subst hadd
  simp only [RelationsMapStash.build_parent_to_member_index] at hbuild
  rw [if_pos trivial] at hbuild
  injection hbuild with hbuild
  obtain ⟨hidx, -⟩ := Prod.mk.inj hbuild
  have hflip : flat_map.flip_in_place (ps.map (fun p => flat_map.kv_pair p.1 p.2)) =
      ps.map (fun p => flat_map.kv_pair p.2 p.1) := by
    unfold flat_map.flip_in_place
    rw [List.map_map]
    rfl
  rw [hflip] at hidx
  subst hidx
  obtain ⟨hpw, hmem⟩ :=
    for_each_sort_unique (ps.map (fun p => flat_map.kv_pair p.2 p.1)) v
  have hiff : ∀ k, k ∈ (RelationsMapIndex.mk (flat_map.sort_unique
      (ps.map (fun p => flat_map.kv_pair p.2 p.1)))).for_each v ↔ (k, v) ∈ ps :=
    fun k => (hmem k).trans (mem_map_kv_swap_iff ps hps hv k)
  refine ⟨hpw, hiff, ?_⟩
  intro hnone
  rw [List.eq_nil_iff_forall_not_mem]
  intro k hk
  exact hnone k ((hiff k).mp hk)

theorem claim_C2_witness :
    (100 : Nat) < uint32_width ∧
    (∀ p ∈ ([(1, 100), (2, 100), (1, 100), (3, 200)] : List (Nat × Nat)),
      p.1 < uint32_width ∧ p.2 < uint32_width) ∧
    RelationsMapStash.addList RelationsMapStash.init [(1, 100), (2, 100), (1, 100), (3, 200)] =
      some ⟨[(1, 100), (2, 100), (1, 100), (3, 200)], true⟩ ∧
    (RelationsMapStash.mk [(1, 100), (2, 100), (1, 100), (3, 200)]
        true).build_parent_to_member_index =
      some (⟨[(100, 1), (100, 2), (200, 3)]⟩, ⟨[], false⟩) ∧
    ((RelationsMapIndex.mk [(100, 1), (100, 2), (200, 3)]).for_each 100).Pairwise (· < ·) ∧
    (∀ k, k ∈ (RelationsMapIndex.mk [(100, 1), (100, 2), (200, 3)]).for_each 100 ↔
      (k, (100 : Nat)) ∈ ([(1, 100), (2, 100), (1, 100), (3, 200)] : List (Nat × Nat))) ∧
    ((∀ k, (k, (100 : Nat)) ∉ ([(1, 100), (2, 100), (1, 100), (3, 200)] : List (Nat × Nat))) →
      (RelationsMapIndex.mk [(100, 1), (100, 2), (200, 3)]).for_each 100 = []) := by
  have h := claim_C2 [(1, 100), (2, 100), (1, 100), (3, 200)] 100
    ⟨[(1, 100), (2, 100), (1, 100), (3, 200)], true⟩ ⟨[], false⟩
    ⟨[(100, 1), (100, 2), (200, 3)]⟩ (by decide) (by decide) (by decide) (by decide)
  exact ⟨by decide, by decide, by decide, by decide, h.1, h.2.1, h.2.2⟩

/-- On an already-narrowed map (the image of the narrowing constructor),
the copy built by `flip_copy` coincides with `flip_in_place`: the second
narrowing inside `flip_copy`'s `set` calls is the identity there. -/
theorem flip_copy_eq_flip_in_place (ps : List (Nat × Nat)) :
    (flat_map.flip_copy (ps.map (fun p => flat_map.kv_pair p.1 p.2))).1 =
      flat_map.flip_in_place (ps.map (fun p => flat_map.kv_pair p.1 p.2)) := by
  unfold flat_map.flip_copy flat_map.flip_in_place
  rw [flip_copy_fold, List.nil_append, List.map_map, List.map_map]
  apply List.map_congr_left
  intro q hq
  show flat_map.kv_pair (flat_map.kv_pair q.1 q.2).2 (flat_map.kv_pair q.1 q.2).1 =
    ((flat_map.kv_pair q.1 q.2).2, (flat_map.kv_pair q.1 q.2).1)
  unfold flat_map.kv_pair
  rw [Nat.mod_mod_of_dvd q.2 (dvd_refl uint32_width),
    Nat.mod_mod_of_dvd q.1 (dvd_refl uint32_width)]

/-- C3: building both directions at once with `build_indexes` yields the
same member-to-parent index a fresh `build_member_to_parent_index` would
build from identically-populated data, and the same parent-to-member index
a fresh `build_parent_to_member_index` would: equal entry vectors, equal
`for_each` results on every id, equal sizes. -/
theorem claim_C3 (ps : List (Nat × Nat)) (s1 s2 s3 t1 t2 t3 : RelationsMapStash)
    (ixs : RelationsMapIndexes) (ia ib : RelationsMapIndex)
    (h1 : RelationsMapStash.addList RelationsMapStash.init ps = some s1)
    (h2 : RelationsMapStash.addList RelationsMapStash.init ps = some s2)
    (h3 : RelationsMapStash.addList RelationsMapStash.init ps = some s3)
    (hb : s1.build_indexes = some (ixs, t1))
    (hm : s2.build_member_to_parent_index = some (ia, t2))
    (hp : s3.build_parent_to_member_index = some (ib, t3)) :
    ixs.member_to_parent.m_map = ia.m_map ∧
    ixs.parent_to_member.m_map = ib.m_map ∧
    (∀ id, ixs.member_to_parent.for_each id = ia.for_each id) ∧
    (∀ id, ixs.parent_to_member.for_each id = ib.for_each id) ∧
    ixs.member_to_parent.size = ia.size ∧
    ixs.parent_to_member.size = ib.size := by
  rw [show RelationsMapStash.init = (⟨[], true⟩ : RelationsMapStash) from rfl,
    addList_from_valid, List.nil_append] at h1 h2 h3
  injection h1 with h1
  injection h2 with h2
  injection h3 with h3
  subst h1
  subst h2
  subst h3
  simp only [RelationsMapStash.build_indexes] at hb
  rw [if_pos trivial] at hb
  simp only [RelationsMapStash.build_member_to_parent_index] at hm
  rw [if_pos trivial] at hm
  simp only [RelationsMapStash.build_parent_to_member_index] at hp
  rw [if_pos trivial] at hp
  injection hb with hb
  injection hm with hm
  injection hp with hp
  obtain ⟨hbix, -⟩ := Prod.mk.inj hb
  obtain ⟨hmix, -⟩ := Prod.mk.inj hm
  obtain ⟨hpix, -⟩ := Prod.mk.inj hp
  subst hbix
  subst hmix
  subst hpix
  have hmember : (RelationsMapIndexes.mk
      ⟨flat_map.sort_unique (flat_map.flip_copy
        (ps.map (fun p => flat_map.kv_pair p.1 p.2))).2⟩
      ⟨flat_map.sort_unique (flat_map.flip_copy
        (ps.map (fun p => flat_map.kv_pair p.1 p.2))).1⟩).member_to_parent.m_map =
      flat_map.sort_unique (ps.map (fun p => flat_map.kv_pair p.1 p.2)) := rfl
  have hparent : (RelationsMapIndexes.mk
      ⟨flat_map.sort_unique (flat_map.flip_copy
        (ps.map (fun p => flat_map.kv_pair p.1 p.2))).2⟩
      ⟨flat_map.sort_unique (flat_map.flip_copy
        (ps.map (fun p => flat_map.kv_pair p.1 p.2))).1⟩).parent_to_member.m_map =
      flat_map.sort_unique (flat_map.flip_in_place
        (ps.map (fun p => flat_map.kv_pair p.1 p.2))) := by
    show flat_map.sort_unique (flat_map.flip_copy
      (ps.map (fun p => flat_map.kv_pair p.1 p.2))).1 = _
    rw [flip_copy_eq_flip_in_place]
  refine ⟨hmember, hparent, ?_, ?_, ?_, ?_⟩
  · intro id
    unfold RelationsMapIndex.for_each
    rw [hmember]
  · intro id
    unfold RelationsMapIndex.for_each
    rw [hparent]
  · unfold RelationsMapIndex.size
    rw [hmember]
  · unfold RelationsMapIndex.size
    rw [hparent]

theorem claim_C3_witness :
    RelationsMapStash.addList RelationsMapStash.init [(1, 100), (2, 100), (1, 100), (3, 200)] =
      some ⟨[(1, 100), (2, 100), (1, 100), (3, 200)], true⟩ ∧
    (RelationsMapStash.mk [(1, 100), (2, 100), (1, 100), (3, 200)] true).build_indexes =
      some (⟨⟨[(1, 100), (2, 100), (3, 200)]⟩, ⟨[(100, 1), (100, 2), (200, 3)]⟩⟩,
        ⟨[], false⟩) ∧
    (RelationsMapStash.mk [(1, 100), (2, 100), (1, 100), (3, 200)]
        true).build_member_to_parent_index =
      some (⟨[(1, 100), (2, 100), (3, 200)]⟩, ⟨[], false⟩) ∧
    (RelationsMapStash.mk [(1, 100), (2, 100), (1, 100), (3, 200)]
        true).build_parent_to_member_index =
      some (⟨[(100, 1), (100, 2), (200, 3)]⟩, ⟨[], false⟩) ∧
    ((RelationsMapIndexes.mk ⟨[(1, 100), (2, 100), (3, 200)]⟩
        ⟨[(100, 1), (100, 2), (200, 3)]⟩).member_to_parent.m_map =
      (RelationsMapIndex.mk [(1, 100), (2, 100), (3, 200)]).m_map ∧
    (RelationsMapIndexes.mk ⟨[(1, 100), (2, 100), (3, 200)]⟩
        ⟨[(100, 1), (100, 2), (200, 3)]⟩).parent_to_member.m_map =
      (RelationsMapIndex.mk [(100, 1), (100, 2), (200, 3)]).m_map ∧
    (∀ id, (RelationsMapIndexes.mk ⟨[(1, 100), (2, 100), (3, 200)]⟩
        ⟨[(100, 1), (100, 2), (200, 3)]⟩).member_to_parent.for_each id =
      (RelationsMapIndex.mk [(1, 100), (2, 100), (3, 200)]).for_each id) ∧
    (∀ id, (RelationsMapIndexes.mk ⟨[(1, 100), (2, 100), (3, 200)]⟩
        ⟨[(100, 1), (100, 2), (200, 3)]⟩).parent_to_member.for_each id =
      (RelationsMapIndex.mk [(100, 1), (100, 2), (200, 3)]).for_each id) ∧
    (RelationsMapIndexes.mk ⟨[(1, 100), (2, 100), (3, 200)]⟩
        ⟨[(100, 1), (100, 2), (200, 3)]⟩).member_to_parent.size =
      (RelationsMapIndex.mk [(1, 100), (2, 100), (3, 200)]).size ∧
    (RelationsMapIndexes.mk ⟨[(1, 100), (2, 100), (3, 200)]⟩
        ⟨[(100, 1), (100, 2), (200, 3)]⟩).parent_to_member.size =
      (RelationsMapIndex.mk [(100, 1), (100, 2), (200, 3)]).size) := by
  have h := claim_C3 [(1, 100), (2, 100), (1, 100), (3, 200)]
    ⟨[(1, 100), (2, 100), (1, 100), (3, 200)], true⟩
    ⟨[(1, 100), (2, 100), (1, 100), (3, 200)], true⟩
    ⟨[(1, 100), (2, 100), (1, 100), (3, 200)], true⟩
    ⟨[], false⟩ ⟨[], false⟩ ⟨[], false⟩
    ⟨⟨[(1, 100), (2, 100), (3, 200)]⟩, ⟨[(100, 1), (100, 2), (200, 3)]⟩⟩
    ⟨[(1, 100), (2, 100), (3, 200)]⟩ ⟨[(100, 1), (100, 2), (200, 3)]⟩
    (by decide) (by decide) (by decide) (by decide) (by decide) (by decide)
  exact ⟨by decide, by decide, by decide, by decide, h⟩

/-- Unfolding of the member loop of `add_members`. -/
theorem add_members_foldl (rid : Nat) : ∀ (ms : List RelationMember) (acc : flat_map),
    ms.foldl
      (fun m member =>
        if member.type = item_type.relation then
          flat_map.set m member.positive_ref rid
        else m)
      acc =
      acc ++ (ms.filter (fun member => decide (member.type = item_type.relation))).map
        (fun member => flat_map.kv_pair member.ref rid)
  | [], acc => by simp
  | mm :: ms, acc => by
    by_cases ht : mm.type = item_type.relation
    · have ih := add_members_foldl rid ms (flat_map.set acc mm.positive_ref rid)
      simp only [List.foldl_cons, List.filter_cons, ht, decide_eq_true_eq, if_pos, ih]
      simp [flat_map.set, RelationMember.positive_ref]
    · have ih := add_members_foldl rid ms acc
      simp only [List.foldl_cons, List.filter_cons]
      rw [if_neg ht, decide_eq_false ht]
      simpa using ih

/-- C4: `add_members(relation)` on a live stash appends exactly one
`(referenced_id, relation_id)` pair per member whose type tag is
`relation`, in member order (identifiers inside the internal 32-bit width,
the spec's caller-trusted narrowing precondition); members of every other
type contribute nothing, and the live flag is unchanged. -/
theorem claim_C4 (s s' : RelationsMapStash) (r : Relation)
    (hid : r.id < uint32_width)
    (hmem : ∀ m ∈ r.members, m.ref < uint32_width)
    (h : s.add_members r = some s') :
    s'.m_map = s.m_map ++
      (r.members.filter (fun m => decide (m.type = item_type.relation))).map
        (fun m => (m.ref, r.id)) ∧
    s'.m_valid = s.m_valid := by
  unfold RelationsMapStash.add_members at h
  by_cases hv : s.m_valid
  · rw [if_pos hv] at h
    injection h with h
    subst h
    constructor
    · show r.members.foldl _ s.m_map = _
      rw [add_members_foldl r.positive_id r.members s.m_map]
      show s.m_map ++ _ = s.m_map ++ _
      congr 1
      apply List.map_congr_left
      intro m hm
      have hmm : m ∈ r.members := (List.mem_filter.mp hm).1
      exact kv_pair_eq_of_lt (hmem m hmm) hid
    · rfl
  · rw [if_neg hv] at h
    cases h

theorem claim_C4_witness :
    (200 : Nat) < uint32_width ∧
    (∀ m ∈ (Relation.mk 200 [⟨item_type.node, 5⟩, ⟨item_type.relation, 7⟩,
        ⟨item_type.relation, 9⟩, ⟨item_type.way, 11⟩]).members,
      m.ref < uint32_width) ∧
    RelationsMapStash.init.add_members
      (Relation.mk 200 [⟨item_type.node, 5⟩, ⟨item_type.relation, 7⟩,
        ⟨item_type.relation, 9⟩, ⟨item_type.way, 11⟩]) =
      some ⟨[(7, 200), (9, 200)], true⟩ ∧
    ((⟨[(7, 200), (9, 200)], true⟩ : RelationsMapStash).m_map =
      RelationsMapStash.init.m_map ++
        ((Relation.mk 200 [⟨item_type.node, 5⟩, ⟨item_type.relation, 7⟩,
            ⟨item_type.relation, 9⟩, ⟨item_type.way, 11⟩]).members.filter
          (fun m => decide (m.type = item_type.relation))).map
          (fun m => (m.ref, (Relation.mk 200 [⟨item_type.node, 5⟩, ⟨item_type.relation, 7⟩,
            ⟨item_type.relation, 9⟩, ⟨item_type.way, 11⟩]).id)) ∧
    (⟨[(7, 200), (9, 200)], true⟩ : RelationsMapStash).m_valid =
      RelationsMapStash.init.m_valid) :=
  ⟨by decide, by decide, by decide,
   claim_C4 RelationsMapStash.init ⟨[(7, 200), (9, 200)], true⟩
     (Relation.mk 200 [⟨item_type.node, 5⟩, ⟨item_type.relation, 7⟩,
       ⟨item_type.relation, 9⟩, ⟨item_type.way, 11⟩])
     (by decide) (by decide) (by decide)⟩

theorem swap_fun_injective : Function.Injective (fun p : Nat × Nat => (p.2, p.1)) := by
  intro a b h
  have h1 := congrArg Prod.fst h
  have h2 := congrArg Prod.snd h
  simp only at h1 h2
  exact Prod.ext h2 h1

/-- Flipping every entry is a bijective relabelling, so sorting and
deduplicating the flipped data yields as many entries as sorting and
deduplicating the original. -/
theorem sort_unique_length_flip (l : flat_map) :
    (flat_map.sort_unique (l.map (fun p => (p.2, p.1)))).length =
      (flat_map.sort_unique l).length := by
  have hA := sort_unique_nodup l
  have hB := sort_unique_nodup (l.map (fun p => (p.2, p.1)))
  have hAf : ((flat_map.sort_unique l).map (fun p : Nat × Nat => (p.2, p.1))).Nodup :=
    List.Nodup.map swap_fun_injective hA
  have hperm : List.Perm (flat_map.sort_unique (l.map (fun p => (p.2, p.1))))
      ((flat_map.sort_unique l).map (fun p => (p.2, p.1))) := by
    rw [List.perm_ext_iff_of_nodup hB hAf]
    intro x
    rw [mem_sort_unique, List.mem_map, List.mem_map]
    constructor
    · rintro ⟨a, ha, rfl⟩
      exact ⟨a, mem_sort_unique.mpr ha, rfl⟩
    · rintro ⟨a, ha, rfl⟩
      exact ⟨a, mem_sort_unique.mp ha, rfl⟩
  rw [hperm.length_eq, List.length_map]

theorem isEmpty_eq_of_length_eq {l1 l2 : List (Nat × Nat)} (h : l1.length = l2.length) :
    l1.isEmpty = l2.isEmpty := by
  cases l1 <;> cases l2 <;> simp_all

/-- C5: the two indexes inside the `Indexes` built by `build_indexes` always
hold equally many entries — the reverse map is a bijective relabelling of
the same set of pairs — so the `Indexes` convenience `size`/`empty`, which
delegate to the member-to-parent side, would report the same answer through
either side. -/
theorem claim_C5 (ps : List (Nat × Nat)) (s t : RelationsMapStash)
    (ixs : RelationsMapIndexes)
    (hadd : RelationsMapStash.addList RelationsMapStash.init ps = some s)
    (hb : s.build_indexes = some (ixs, t)) :
    ixs.member_to_parent.size = ixs.parent_to_member.size ∧
    ixs.size = ixs.member_to_parent.size ∧
    ixs.size = ixs.parent_to_member.size ∧
    ixs.empty = ixs.member_to_parent.empty ∧
    ixs.empty = ixs.parent_to_member.empty := by
  rw [show RelationsMapStash.init = (⟨[], true⟩ : RelationsMapStash) from rfl,
    addList_from_valid, List.nil_append] at hadd
  injection hadd with hadd
  subst hadd
  simp only [RelationsMapStash.build_indexes] at hb
  rw [if_pos trivial] at hb
  injection hb with hb
  obtain ⟨hbix, -⟩ := Prod.mk.inj hb
  subst hbix
  have hlen : (flat_map.sort_unique (flat_map.flip_copy
      (ps.map (fun p => flat_map.kv_pair p.1 p.2))).2).length =
      (flat_map.sort_unique (flat_map.flip_copy
        (ps.map (fun p => flat_map.kv_pair p.1 p.2))).1).length := by
    rw [flip_copy_eq_flip_in_place]
    show (flat_map.sort_unique (ps.map (fun p => flat_map.kv_pair p.1 p.2))).length = _
    rw [show flat_map.flip_in_place (ps.map (fun p => flat_map.kv_pair p.1 p.2)) =
      (ps.map (fun p => flat_map.kv_pair p.1 p.2)).map (fun p => (p.2, p.1)) from rfl]
    rw [sort_unique_length_flip]
  refine ⟨hlen, rfl, hlen, rfl, ?_⟩
  show flat_map.empty _ = flat_map.empty _
  unfold flat_map.empty
  exact isEmpty_eq_of_length_eq hlen

theorem claim_C5_witness :
    RelationsMapStash.addList RelationsMapStash.init [(1, 100), (2, 100), (1, 100), (3, 200)] =
      some ⟨[(1, 100), (2, 100), (1, 100), (3, 200)], true⟩ ∧
    (RelationsMapStash.mk [(1, 100), (2, 100), (1, 100), (3, 200)] true).build_indexes =
      some (⟨⟨[(1, 100), (2, 100), (3, 200)]⟩, ⟨[(100, 1), (100, 2), (200, 3)]⟩⟩,
        ⟨[], false⟩) ∧
    ((RelationsMapIndexes.mk ⟨[(1, 100), (2, 100), (3, 200)]⟩
        ⟨[(100, 1), (100, 2), (200, 3)]⟩).member_to_parent.size =
      (RelationsMapIndexes.mk ⟨[(1, 100), (2, 100), (3, 200)]⟩
        ⟨[(100, 1), (100, 2), (200, 3)]⟩).parent_to_member.size ∧
    (RelationsMapIndexes.mk ⟨[(1, 100), (2, 100), (3, 200)]⟩
        ⟨[(100, 1), (100, 2), (200, 3)]⟩).size =
      (RelationsMapIndexes.mk ⟨[(1, 100), (2, 100), (3, 200)]⟩
        ⟨[(100, 1), (100, 2), (200, 3)]⟩).member_to_parent.size ∧
    (RelationsMapIndexes.mk ⟨[(1, 100), (2, 100), (3, 200)]⟩
        ⟨[(100, 1), (100, 2), (200, 3)]⟩).size =
      (RelationsMapIndexes.mk ⟨[(1, 100), (2, 100), (3, 200)]⟩
        ⟨[(100, 1), (100, 2), (200, 3)]⟩).parent_to_member.size ∧
    (RelationsMapIndexes.mk ⟨[(1, 100), (2, 100), (3, 200)]⟩
        ⟨[(100, 1), (100, 2), (200, 3)]⟩).empty =
      (RelationsMapIndexes.mk ⟨[(1, 100), (2, 100), (3, 200)]⟩
        ⟨[(100, 1), (100, 2), (200, 3)]⟩).member_to_parent.empty ∧
    (RelationsMapIndexes.mk ⟨[(1, 100), (2, 100), (3, 200)]⟩
        ⟨[(100, 1), (100, 2), (200, 3)]⟩).empty =
      (RelationsMapIndexes.mk ⟨[(1, 100), (2, 100), (3, 200)]⟩
        ⟨[(100, 1), (100, 2), (200, 3)]⟩).parent_to_member.empty) :=
  ⟨by decide, by decide,
   claim_C5 [(1, 100), (2, 100), (1, 100), (3, 200)]
     ⟨[(1, 100), (2, 100), (1, 100), (3, 200)], true⟩ ⟨[], false⟩
     ⟨⟨[(1, 100), (2, 100), (3, 200)]⟩, ⟨[(100, 1), (100, 2), (200, 3)]⟩⟩
     (by decide) (by decide)⟩
